import Mathlib

/-!
# Verification of the `just_agents` event bus (`just_bus.py`)

Shallow embedding of `JustEventBus` and `BufferedEventBus`.

Modelling decisions:
* A subscriber callback is identified by a natural number: Python compares
  callbacks by object identity (in the `seen` set and in `list.remove`), so
  an opaque identity token is the faithful model.
* An event carries its name plus two opaque payload tokens standing for the
  positional and keyword arguments of `publish`.
* The subscription registry is an insertion-ordered association list from
  pattern strings to callback lists, the model of a Python 3.7+ `dict`
  (iteration order = key insertion order).
* Callback behaviour is a parameter `rz : Raises`: `rz cb e = true` means
  callback `cb` raises an exception when invoked with event `e`.  A raised
  exception is modelled by an `Option`-style result (`none` = the exception
  propagated to the caller); the invocation trace records every callback
  actually invoked, paired with the event it received.
* The buffered bus's `deque(maxlen=C)` is a list (front = oldest) whose
  append keeps only the last `C` elements.
-/

namespace JustBus

/-- An event: name plus opaque tokens for the positional / keyword payload
(`*args`, `**kwargs` of `publish`). -/
structure Event where
  name : String
  a : Nat
  b : Nat
  deriving DecidableEq, Repr

/-- The subscription registry `_subscribers`: insertion-ordered map from
pattern to the list of callbacks registered under it. -/
abbrev Registry := List (String × List Nat)

/-- Which callbacks raise an exception when invoked with a given event. -/
abbrev Raises := Nat → Event → Bool

/-- The behaviour in which no callback ever raises. -/
def noRaise : Raises := fun _ _ => false

/-- Python dict lookup `self._subscribers.get(p)` (first matching key). -/
def lookupReg : Registry → String → Option (List Nat)
  | [], _ => none
  | (k, v) :: rest, p => if k = p then some v else lookupReg rest p

/-- Model of `JustEventBus.subscribe`: create the key if absent, append the callback
to its list.  Returns the updated registry (the Python method returns
`True` unconditionally). -/
def subscribe : Registry → String → Nat → Registry
  | [], p, cb => [(p, [cb])]
  | (k, v) :: rest, p, cb =>
    if k = p then (k, v ++ [cb]) :: rest
    else (k, v) :: subscribe rest p cb

/-- Python `list.remove`: delete the first occurrence. -/
def removeFirst : List Nat → Nat → List Nat
  | [], _ => []
  | x :: rest, cb => if x = cb then rest else x :: removeFirst rest cb

/-- Model of `JustEventBus.unsubscribe`: remove the first occurrence of `cb` under
exactly key `p`; the Bool is the method's return value. -/
def unsubscribe : Registry → String → Nat → Registry × Bool
  | [], _, _ => ([], false)
  | (k, v) :: rest, p, cb =>
    if k = p then
      if cb ∈ v then ((k, removeFirst v cb) :: rest, true)
      else ((k, v) :: rest, false)
    else
      let r := unsubscribe rest p cb
      ((k, v) :: r.1, r.2)

/-- Python `s.startswith(p)` over code points. -/
def strStarts (s p : String) : Bool := p.data.isPrefixOf s.data

/-- Python `s.endswith(t)` over code points. -/
def strEnds (s t : String) : Bool := t.data.isSuffixOf s.data

/-- Python `s[:-2]`: drop the last two code points. -/
def strTrunc2 (s : String) : String := String.mk s.data.dropLast.dropLast

/-- The test `pattern.endswith('.*') and name.startswith(pattern[:-2])`. -/
def isPfxPat (pat name : String) : Bool :=
  strEnds pat ".*" && strStarts name (strTrunc2 pat)

/-- Step 1 of `_dispatch_event`: `self._subscribers.get(event_name, [])`. -/
def exactCallbacks (reg : Registry) (name : String) : List Nat :=
  (lookupReg reg name).getD []

/-- Step 2 of `_dispatch_event`: scan all patterns in registry order, collect
the callback lists of matching `.*` patterns. -/
def pfxCallbacks (name : String) : Registry → List Nat
  | [] => []
  | (k, v) :: rest =>
    (if isPfxPat k name then v else []) ++ pfxCallbacks name rest

/-- First-occurrence deduplication (the `seen` set walk), generalised over
the already-seen callbacks. -/
def dedupAux : List Nat → List Nat → List Nat
  | _, [] => []
  | seen, c :: rest =>
    if c ∈ seen then dedupAux seen rest
    else c :: dedupAux (c :: seen) rest

/-- The callbacks `_dispatch_event` invokes, in order: first-seen walk of
`exact_callbacks + prefix_callbacks`. -/
def dispatchList (reg : Registry) (name : String) : List Nat :=
  dedupAux [] (exactCallbacks reg name ++ pfxCallbacks name reg)

/-- Run the invocation loop of `_dispatch_event` over a callback list.
Returns the trace of invocations `(cb, event received)` and whether the
loop completed (`false` = a callback raised and the loop stopped there). -/
def invokeList (rz : Raises) (e : Event) : List Nat → List (Nat × Event) × Bool
  | [] => ([], true)
  | c :: rest =>
    if rz c e then ([(c, e)], false)
    else
      let r := invokeList rz e rest
      ((c, e) :: r.1, r.2)

/-- Model of `JustEventBus._dispatch_event` (also the body of the core `publish`):
the invocation trace, and `some delivered` on normal return (`delivered` =
`len(seen) > 0`), `none` when a callback's exception propagated. -/
def dispatchEvent (rz : Raises) (reg : Registry) (e : Event) :
    List (Nat × Event) × Option Bool :=
  let r := invokeList rz e (dispatchList reg e.name)
  (r.1, if r.2 then some (decide (0 < r.1.length)) else none)

/-- State of a `BufferedEventBus`: registry, buffer (front = oldest) and the
deque capacity `_buffer_max_size`. -/
structure BufBus where
  reg : Registry
  buf : List Event
  cap : Nat
  deriving DecidableEq, Repr

/-- Python `deque(maxlen=cap).append(e)`: append on the right, keep only the last
`cap` elements (the oldest are silently discarded). -/
def bufAppend (cap : Nat) (buf : List Event) (e : Event) : List Event :=
  (buf ++ [e]).drop ((buf ++ [e]).length - cap)

/-- Truthiness test `trim_prefix and event_name.startswith(trim_prefix)`:
`None` and the empty string are falsy. -/
def trimMatch (tp : Option String) (name : String) : Bool :=
  match tp with
  | none => false
  | some p => !p.data.isEmpty && strStarts name p

/-- Result of a `_flush_buffer` run: the callbacks invoked (with the event
each received), the final buffer, `removed_count`, the dequeued entries in
order (`attempts`, with `pops = attempts.length` dequeue attempts), and
whether the loop completed without a callback exception. -/
structure FlushRes where
  trace : List (Nat × Event)
  buf : List Event
  removed : Nat
  attempts : List Event
  ok : Bool
  deriving DecidableEq, Repr

/-- The loop of `_flush_buffer`, with fuel `range(buffer_size)`.  Each
iteration: stop if the buffer is empty; pop the oldest entry; if the trim
filter matches, count it removed; otherwise dispatch it via the core —
counting it removed on success, re-appending it (through the capacity-
bounded deque append) on failure, and propagating a callback exception
(`ok = false`, buffer left as the exception leaves it). -/
def flushLoop (rz : Raises) (reg : Registry) (cap : Nat) (tp : Option String) :
    Nat → List Event → FlushRes
  | 0, buf => ⟨[], buf, 0, [], true⟩
  | _ + 1, [] => ⟨[], [], 0, [], true⟩
  | f + 1, e :: rest =>
    if trimMatch tp e.name then
      let r := flushLoop rz reg cap tp f rest
      ⟨r.trace, r.buf, r.removed + 1, e :: r.attempts, r.ok⟩
    else
      let d := dispatchEvent rz reg e
      match d.2 with
      | none => ⟨d.1, rest, 0, [e], false⟩
      | some true =>
        let r := flushLoop rz reg cap tp f rest
        ⟨d.1 ++ r.trace, r.buf, r.removed + 1, e :: r.attempts, r.ok⟩
      | some false =>
        let r := flushLoop rz reg cap tp f (bufAppend cap rest e)
        ⟨d.1 ++ r.trace, r.buf, r.removed, e :: r.attempts, r.ok⟩

/-- Model of `BufferedEventBus._flush_buffer`: run the loop with
`buffer_size = len(self._buffer)` dequeue attempts. -/
def flushBuffer (rz : Raises) (s : BufBus) (tp : Option String) : FlushRes :=
  flushLoop rz s.reg s.cap tp s.buf.length s.buf

/-- Result of a buffered-bus operation: invocation trace, post state, and
the returned Bool (`none` when a callback exception propagated to the
caller). -/
structure StepRes where
  trace : List (Nat × Event)
  state : BufBus
  ret : Option Bool
  deriving DecidableEq, Repr

/-- Model of `BufferedEventBus.publish`: dispatch via the core; if a callback raised
there, the exception propagates with the buffer untouched.  Otherwise the
event is appended iff undelivered, a flush is attempted unconditionally,
and the core's `delivered` result is returned unchanged (unless the flush
itself raised). -/
def bufPublish (rz : Raises) (s : BufBus) (e : Event) : StepRes :=
  let d := dispatchEvent rz s.reg e
  match d.2 with
  | none => ⟨d.1, s, none⟩
  | some delivered =>
    let buf1 := if delivered then s.buf else bufAppend s.cap s.buf e
    let fr := flushBuffer rz ⟨s.reg, buf1, s.cap⟩ none
    ⟨d.1 ++ fr.trace, ⟨s.reg, fr.buf, s.cap⟩, if fr.ok then some delivered else none⟩

/-- Model of `BufferedEventBus.subscribe`: the core subscribe (always `True`), then
an unconditional flush attempt. -/
def bufSubscribe (rz : Raises) (s : BufBus) (pat : String) (cb : Nat) : StepRes :=
  let reg2 := subscribe s.reg pat cb
  let fr := flushBuffer rz ⟨reg2, s.buf, s.cap⟩ none
  ⟨fr.trace, ⟨reg2, fr.buf, s.cap⟩, if fr.ok then some true else none⟩

/-- Result of `trim_by_prefix`: invocation trace, post state, returned
count (`none` when a callback exception propagated). -/
structure TrimRes where
  trace : List (Nat × Event)
  state : BufBus
  ret : Option Nat
  deriving DecidableEq, Repr

/-- Model of `BufferedEventBus.trim_by_prefix`: a flush pass with the trim filter
set; returns `removed_count`. -/
def trimByPfx (rz : Raises) (s : BufBus) (p : String) : TrimRes :=
  let fr := flushBuffer rz s (some p)
  ⟨fr.trace, ⟨s.reg, fr.buf, s.cap⟩, if fr.ok then some fr.removed else none⟩

/-- One operation on a buffered bus. -/
inductive BusOp where
  | sub (pat : String) (cb : Nat)
  | unsub (pat : String) (cb : Nat)
  | pub (e : Event)
  | trim (p : String)
  deriving DecidableEq, Repr

/-- The state a buffered-bus operation leaves behind (also when it ends by
propagating a callback exception). -/
def runOp (rz : Raises) (s : BufBus) : BusOp → BufBus
  | BusOp.sub pat cb => (bufSubscribe rz s pat cb).state
  | BusOp.unsub pat cb => ⟨(unsubscribe s.reg pat cb).1, s.buf, s.cap⟩
  | BusOp.pub e => (bufPublish rz s e).state
  | BusOp.trim p => (trimByPfx rz s p).state

/-- Run a sequence of buffered-bus operations. -/
def runOps (rz : Raises) (s : BufBus) (ops : List BusOp) : BufBus :=
  ops.foldl (runOp rz) s

/-- Build a registry from a sequence of `subscribe` calls, starting from a
given registry. -/
def buildRegFrom (r : Registry) : List (String × Nat) → Registry
  | [] => r
  | (p, c) :: rest => buildRegFrom (subscribe r p c) rest

/-- A registry built by a sequence of `subscribe(pattern, callback)` calls
on a fresh bus. -/
def buildReg (subs : List (String × Nat)) : Registry :=
  buildRegFrom [] subs

/-! ### Deduplication lemmas -/

theorem mem_dedupAux {x : Nat} : ∀ (seen l : List Nat),
    x ∈ dedupAux seen l ↔ x ∈ l ∧ x ∉ seen := by
  intro seen l
  induction l generalizing seen with
  | nil => simp [dedupAux]
  | cons c rest ih =>
    by_cases hc : c ∈ seen
    · by_cases hxc : x = c
      · subst hxc; simp [dedupAux, if_pos hc, ih, hc]
      · simp [dedupAux, if_pos hc, ih, hxc]
    · by_cases hxc : x = c
      · subst hxc; simp [dedupAux, if_neg hc, hc]
      · simp [dedupAux, if_neg hc, ih, hxc]

theorem nodup_dedupAux : ∀ (seen l : List Nat), (dedupAux seen l).Nodup := by
  intro seen l
  induction l generalizing seen with
  | nil => simp [dedupAux]
  | cons c rest ih =>
    by_cases hc : c ∈ seen
    · simpa [dedupAux, if_pos hc] using ih seen
    · simp only [dedupAux, if_neg hc]
      exact List.nodup_cons.mpr
        ⟨fun h => ((mem_dedupAux _ _).mp h).2 (List.mem_cons_self c seen),
         ih (c :: seen)⟩

theorem dedupAux_sublist : ∀ (seen l : List Nat), (dedupAux seen l).Sublist l := by
  intro seen l
  induction l generalizing seen with
  | nil => simp [dedupAux]
  | cons c rest ih =>
    by_cases hc : c ∈ seen
    · simpa [dedupAux, if_pos hc] using (ih seen).cons c
    · simpa [dedupAux, if_neg hc] using (ih (c :: seen)).cons₂ c

theorem dedupAux_append (A B : List Nat) : ∀ seen,
    ∃ s, dedupAux seen (A ++ B) = dedupAux seen A ++ dedupAux s B := by
  induction A with
  | nil => exact fun seen => ⟨seen, by simp [dedupAux]⟩
  | cons a A ih =>
    intro seen
    by_cases ha : a ∈ seen
    · obtain ⟨s, hs⟩ := ih seen
      exact ⟨s, by simp [dedupAux, if_pos ha, hs]⟩
    · obtain ⟨s, hs⟩ := ih (a :: seen)
      exact ⟨s, by simp [dedupAux, if_neg ha, hs]⟩

/-! ### Dispatch under `noRaise` -/

theorem invokeList_noRaise (e : Event) : ∀ l : List Nat,
    invokeList noRaise e l = (l.map fun c => (c, e), true) := by
  intro l
  induction l with
  | nil => rfl
  | cons c rest ih => simp [invokeList, noRaise, ih]

theorem dispatchEvent_noRaise (reg : Registry) (e : Event) :
    dispatchEvent noRaise reg e =
      ((dispatchList reg e.name).map (fun c => (c, e)),
       some (decide (dispatchList reg e.name ≠ []))) := by
  simp only [dispatchEvent, invokeList_noRaise, if_pos]
  congr 1
  rcases h : dispatchList reg e.name with _ | ⟨c, rest⟩ <;> simp

theorem mem_dispatchList {cb : Nat} {reg : Registry} {name : String} :
    cb ∈ dispatchList reg name ↔
      cb ∈ exactCallbacks reg name ∨ cb ∈ pfxCallbacks name reg := by
  simp [dispatchList, mem_dedupAux, List.mem_append]

theorem nodup_dispatchList (reg : Registry) (name : String) :
    (dispatchList reg name).Nodup :=
  nodup_dedupAux _ _

/-! ### Registry membership under `subscribe` -/

theorem exactCallbacks_nil (name : String) : exactCallbacks [] name = [] := rfl

theorem exactCallbacks_cons (k : String) (v : List Nat) (rest : Registry)
    (name : String) :
    exactCallbacks ((k, v) :: rest) name =
      if k = name then v else exactCallbacks rest name := by
  by_cases h : k = name <;> simp [exactCallbacks, lookupReg, h]

theorem mem_exact_subscribe {cb c : Nat} {p name : String} : ∀ reg : Registry,
    (cb ∈ exactCallbacks (subscribe reg p c) name ↔
      cb ∈ exactCallbacks reg name ∨ (p = name ∧ cb = c)) := by
  intro reg
  induction reg with
  | nil =>
    by_cases h : p = name
    · subst h; simp [subscribe, exactCallbacks_cons, exactCallbacks_nil]
    · simp [subscribe, exactCallbacks_cons, exactCallbacks_nil, h]
  | cons kv rest ih =>
    obtain ⟨k, v⟩ := kv
    by_cases hk : k = p
    · subst hk
      by_cases hn : k = name
      · subst hn; simp [subscribe, exactCallbacks_cons]
      · simp [subscribe, exactCallbacks_cons, hn]
    · by_cases hn : k = name
      · subst hn
        have hp : ¬p = k := fun h => hk h.symm
        simp [subscribe, hk, exactCallbacks_cons, hp]
      · simp [subscribe, hk, exactCallbacks_cons, hn, ih]

theorem mem_pfx_subscribe {cb c : Nat} {p name : String} : ∀ reg : Registry,
    (cb ∈ pfxCallbacks name (subscribe reg p c) ↔
      cb ∈ pfxCallbacks name reg ∨ (cb = c ∧ isPfxPat p name = true)) := by
  intro reg
  induction reg with
  | nil =>
    by_cases h : isPfxPat p name <;> simp [subscribe, pfxCallbacks, h]
  | cons kv rest ih =>
    obtain ⟨k, v⟩ := kv
    by_cases hk : k = p
    · subst hk
      by_cases h : isPfxPat k name
      all_goals simp [subscribe, pfxCallbacks, h]
      all_goals tauto
    · by_cases h : isPfxPat k name
      all_goals simp [subscribe, hk, pfxCallbacks, h, ih]
      all_goals tauto

theorem mem_exact_buildRegFrom {cb : Nat} {name : String} :
    ∀ (subs : List (String × Nat)) (r : Registry),
      (cb ∈ exactCallbacks (buildRegFrom r subs) name ↔
        cb ∈ exactCallbacks r name ∨ (name, cb) ∈ subs) := by
  intro subs
  induction subs with
  | nil => simp [buildRegFrom]
  | cons pc rest ih =>
    intro r
    obtain ⟨p, c⟩ := pc
    simp only [buildRegFrom, ih, mem_exact_subscribe, List.mem_cons,
      Prod.mk.injEq]
    constructor
    · rintro ((h | ⟨rfl, rfl⟩) | h)
      · exact Or.inl h
      · exact Or.inr (Or.inl ⟨rfl, rfl⟩)
      · exact Or.inr (Or.inr h)
    · rintro (h | (⟨rfl, rfl⟩ | h))
      · exact Or.inl (Or.inl h)
      · exact Or.inl (Or.inr ⟨rfl, rfl⟩)
      · exact Or.inr h

theorem mem_pfx_buildRegFrom {cb : Nat} {name : String} :
    ∀ (subs : List (String × Nat)) (r : Registry),
      (cb ∈ pfxCallbacks name (buildRegFrom r subs) ↔
        cb ∈ pfxCallbacks name r ∨
          ∃ p, (p, cb) ∈ subs ∧ isPfxPat p name = true) := by
  intro subs
  induction subs with
  | nil => simp [buildRegFrom]
  | cons pc rest ih =>
    intro r
    obtain ⟨p, c⟩ := pc
    simp only [buildRegFrom, ih, mem_pfx_subscribe, List.mem_cons,
      Prod.mk.injEq]
    constructor
    · rintro ((h | ⟨rfl, hp⟩) | ⟨q, hq, hmq⟩)
      · exact Or.inl h
      · exact Or.inr ⟨p, Or.inl ⟨rfl, rfl⟩, hp⟩
      · exact Or.inr ⟨q, Or.inr hq, hmq⟩
    · rintro (h | ⟨q, ⟨rfl, rfl⟩ | hq, hmq⟩)
      · exact Or.inl (Or.inl h)
      · exact Or.inl (Or.inr ⟨rfl, hmq⟩)
      · exact Or.inr ⟨q, hq, hmq⟩

theorem mem_exact_buildReg {cb : Nat} {name : String}
    {subs : List (String × Nat)} :
    cb ∈ exactCallbacks (buildReg subs) name ↔ (name, cb) ∈ subs := by
  simpa [buildReg, exactCallbacks_nil] using mem_exact_buildRegFrom subs []

theorem mem_pfx_buildReg {cb : Nat} {name : String}
    {subs : List (String × Nat)} :
    cb ∈ pfxCallbacks name (buildReg subs) ↔
      ∃ p, (p, cb) ∈ subs ∧ isPfxPat p name = true := by
  simpa [buildReg, pfxCallbacks] using mem_pfx_buildRegFrom subs []

/-! ### Buffer append and flush lemmas -/

theorem bufAppend_length_le (cap : Nat) (l : List Event) (e : Event) :
    (bufAppend cap l e).length ≤ cap := by
  simp only [bufAppend, List.length_drop, List.length_append,
    List.length_singleton]
  omega

theorem bufAppend_length_le_succ (cap : Nat) (l : List Event) (e : Event) :
    (bufAppend cap l e).length ≤ l.length + 1 := by
  simp only [bufAppend, List.length_drop, List.length_append,
    List.length_singleton]
  omega

theorem bufAppend_of_lt {cap : Nat} {l : List Event} (e : Event)
    (h : l.length < cap) : bufAppend cap l e = l ++ [e] := by
  have h0 : l.length + 1 - cap = 0 := by omega
  simp [bufAppend, h0]

theorem flushLoop_len (rz : Raises) (reg : Registry) (cap : Nat)
    (tp : Option String) : ∀ (f : Nat) (buf : List Event),
    buf.length ≤ cap → (flushLoop rz reg cap tp f buf).buf.length ≤ buf.length := by
  intro f
  induction f with
  | zero => intro buf _; simp [flushLoop]
  | succ f ih =>
    intro buf hcap
    match buf with
    | [] => simp [flushLoop]
    | e :: rest =>
      by_cases ht : trimMatch tp e.name
      · have := ih rest (by simp at hcap ⊢; omega)
        simp only [flushLoop, if_pos ht, List.length_cons]
        omega
      · simp only [flushLoop, if_neg ht]
        rcases hd : (dispatchEvent rz reg e).2 with _ | b
        · simp [List.length_cons]
        · cases b
          · have h1 := ih (bufAppend cap rest e) (bufAppend_length_le cap rest e)
            have h2 := bufAppend_length_le_succ cap rest e
            simp only [List.length_cons]
            omega
          · have := ih rest (by simp at hcap ⊢; omega)
            simp only [List.length_cons]
            omega

theorem flushLoop_noRaise_ok (reg : Registry) (cap : Nat) (tp : Option String) :
    ∀ (f : Nat) (buf : List Event),
    (flushLoop noRaise reg cap tp f buf).ok = true := by
  intro f
  induction f with
  | zero => intro buf; simp [flushLoop]
  | succ f ih =>
    intro buf
    match buf with
    | [] => simp [flushLoop]
    | e :: rest =>
      by_cases ht : trimMatch tp e.name
      · simp only [flushLoop, if_pos ht]
        exact ih rest
      · simp only [flushLoop, if_neg ht, dispatchEvent_noRaise]
        by_cases hP : dispatchList reg e.name = []
        · simpa [hP] using ih (bufAppend cap rest e)
        · simpa [hP] using ih rest

/-- Master characterisation of a `_flush_buffer` pass when no callback
raises and the buffer respects capacity: the `f` dequeue attempts process
exactly the first `f` entries in order; a trim-matching entry is dropped
and counted; a deliverable entry is dispatched and counted; an
undeliverable entry is re-appended behind the unprocessed remainder. -/
theorem flushLoop_spec (reg : Registry) (cap : Nat) (tp : Option String) :
    ∀ (f : Nat) (buf : List Event), buf.length ≤ cap → f ≤ buf.length →
    flushLoop noRaise reg cap tp f buf =
      ⟨(buf.take f).flatMap
         (fun ev => if trimMatch tp ev.name then []
                    else (dispatchList reg ev.name).map (fun c => (c, ev))),
       buf.drop f ++ (buf.take f).filter
         (fun ev => !trimMatch tp ev.name && (dispatchList reg ev.name).isEmpty),
       ((buf.take f).filter
         (fun ev => trimMatch tp ev.name || !(dispatchList reg ev.name).isEmpty)).length,
       buf.take f,
       true⟩ := by
  intro f
  induction f with
  | zero => intro buf _ _; simp [flushLoop]
  | succ f ih =>
    intro buf hcap hf
    match buf with
    | [] => simp at hf
    | e :: rest =>
      have hcap' : rest.length ≤ cap := by simp at hcap; omega
      have hrl : rest.length + 1 ≤ cap := by simpa using hcap
      have hf' : f ≤ rest.length := by simpa using hf
      by_cases ht : trimMatch tp e.name
      · rw [show flushLoop noRaise reg cap tp (f + 1) (e :: rest) =
            (let r := flushLoop noRaise reg cap tp f rest
             ⟨r.trace, r.buf, r.removed + 1, e :: r.attempts, r.ok⟩) from by
          simp only [flushLoop, if_pos ht]]
        rw [ih rest hcap' hf']
        simp [ht, List.take_succ_cons, List.drop_succ_cons]
      · rw [show flushLoop noRaise reg cap tp (f + 1) (e :: rest) =
            (match (dispatchEvent noRaise reg e).2 with
             | none => ⟨(dispatchEvent noRaise reg e).1, rest, 0, [e], false⟩
             | some true =>
               let r := flushLoop noRaise reg cap tp f rest
               ⟨(dispatchEvent noRaise reg e).1 ++ r.trace, r.buf,
                r.removed + 1, e :: r.attempts, r.ok⟩
             | some false =>
               let r := flushLoop noRaise reg cap tp f (bufAppend cap rest e)
               ⟨(dispatchEvent noRaise reg e).1 ++ r.trace, r.buf,
                r.removed, e :: r.attempts, r.ok⟩) from by
          simp only [flushLoop, if_neg ht]]
        rw [dispatchEvent_noRaise]
        by_cases hP : dispatchList reg e.name = []
        · rw [bufAppend_of_lt e (by omega)]
          simp only [hP, decide_not, List.map_nil, decide_False]
          rw [ih (rest ++ [e]) (by simpa using hrl) (by simp; omega)]
          rw [List.take_append_of_le_length hf',
            List.drop_append_of_le_length hf']
          simp [ht, hP, List.take_succ_cons, List.drop_succ_cons]
        · have hdec : decide (dispatchList reg e.name ≠ []) = true := by
            simpa using hP
          rw [hdec]
          rw [ih rest hcap' hf']
          simp [ht, hP, List.take_succ_cons, List.drop_succ_cons]

/-- Characterisation of `flushBuffer`: the whole buffer is processed. -/
theorem flushBuffer_spec (s : BufBus) (tp : Option String)
    (hcap : s.buf.length ≤ s.cap) :
    flushBuffer noRaise s tp =
      ⟨s.buf.flatMap
         (fun ev => if trimMatch tp ev.name then []
                    else (dispatchList s.reg ev.name).map (fun c => (c, ev))),
       s.buf.filter
         (fun ev => !trimMatch tp ev.name && (dispatchList s.reg ev.name).isEmpty),
       (s.buf.filter
         (fun ev => trimMatch tp ev.name || !(dispatchList s.reg ev.name).isEmpty)).length,
       s.buf,
       true⟩ := by
  rw [flushBuffer, flushLoop_spec s.reg s.cap tp s.buf.length s.buf hcap le_rfl]
  simp

/-! ### Counting helpers -/

theorem length_filter_or_split {α : Type} (p q : α → Bool) :
    ∀ l : List α,
    (l.filter (fun x => p x || q x)).length =
      (l.filter p).length + (l.filter (fun x => !p x && q x)).length := by
  intro l
  induction l with
  | nil => simp
  | cons x rest ih =>
    by_cases hp : p x
    · simp [List.filter_cons, hp, ih]; omega
    · by_cases hq : q x
      · simp [List.filter_cons, hp, hq, ih]
        omega
      · simp [List.filter_cons, hp, hq, ih]

/-! ### Capacity invariant through operations -/

theorem runOp_cap (rz : Raises) (s : BufBus) (op : BusOp) :
    (runOp rz s op).cap = s.cap := by
  cases op with
  | sub pat cb => rfl
  | unsub pat cb => rfl
  | pub e =>
    simp only [runOp, bufPublish]
    rcases (dispatchEvent rz s.reg e).2 with _ | b <;> rfl
  | trim p => rfl

theorem runOp_len (rz : Raises) (s : BufBus) (op : BusOp)
    (h : s.buf.length ≤ s.cap) : (runOp rz s op).buf.length ≤ s.cap := by
  cases op with
  | sub pat cb =>
    simp only [runOp, bufSubscribe, flushBuffer]
    exact le_trans (flushLoop_len rz _ s.cap none s.buf.length s.buf h) h
  | unsub pat cb => exact h
  | pub e =>
    simp only [runOp, bufPublish]
    rcases (dispatchEvent rz s.reg e).2 with _ | b
    · exact h
    · simp only [flushBuffer]
      cases b
      · exact le_trans
          (le_trans (flushLoop_len rz _ s.cap none _ _ (bufAppend_length_le _ _ _))
            (bufAppend_length_le _ _ _)) le_rfl
      · exact le_trans (flushLoop_len rz _ s.cap none s.buf.length s.buf h) h
  | trim p =>
    simp only [runOp, trimByPfx, flushBuffer]
    exact le_trans (flushLoop_len rz _ s.cap (some p) s.buf.length s.buf h) h

theorem runOps_cap (rz : Raises) : ∀ (ops : List BusOp) (s : BufBus),
    (runOps rz s ops).cap = s.cap := by
  intro ops
  induction ops with
  | nil => intro s; rfl
  | cons op rest ih =>
    intro s
    simp only [runOps, List.foldl_cons]
    rw [show List.foldl (runOp rz) (runOp rz s op) rest =
        runOps rz (runOp rz s op) rest from rfl, ih, runOp_cap]

theorem runOps_len (rz : Raises) : ∀ (ops : List BusOp) (s : BufBus),
    s.buf.length ≤ s.cap → (runOps rz s ops).buf.length ≤ s.cap := by
  intro ops
  induction ops with
  | nil => intro s h; exact h
  | cons op rest ih =>
    intro s h
    simp only [runOps, List.foldl_cons]
    rw [show List.foldl (runOp rz) (runOp rz s op) rest =
        runOps rz (runOp rz s op) rest from rfl]
    have h1 := runOp_len rz s op h
    have h2 := runOp_cap rz s op
    simpa [h2] using ih (runOp rz s op) (by rw [h2]; exact h1)

/-! ### Publishing with no subscribers -/

theorem dispatchList_nil (name : String) : dispatchList [] name = [] := rfl

/-- Normal-path characterisation of the buffered `publish`: the core
dispatch runs first, the event is appended iff it was not delivered, a
flush follows unconditionally, and the returned Bool is the core result. -/
theorem bufPublish_noRaise (s : BufBus) (e : Event) :
    bufPublish noRaise s e =
      StepRes.mk
        ((dispatchList s.reg e.name).map (fun c => (c, e)) ++
          (flushBuffer noRaise
            (BufBus.mk s.reg
              (if (dispatchList s.reg e.name).isEmpty then
                bufAppend s.cap s.buf e
              else s.buf) s.cap) none).trace)
        (BufBus.mk s.reg
          (flushBuffer noRaise
            (BufBus.mk s.reg
              (if (dispatchList s.reg e.name).isEmpty then
                bufAppend s.cap s.buf e
              else s.buf) s.cap) none).buf s.cap)
        (some (!(dispatchList s.reg e.name).isEmpty)) := by
  rw [bufPublish, dispatchEvent_noRaise]
  by_cases hP : dispatchList s.reg e.name = [] <;>
    simp [hP, flushLoop_noRaise_ok, flushBuffer]

theorem bufPublish_empty_reg (buf : List Event) (cap : Nat) (e : Event) :
    bufPublish noRaise (BufBus.mk [] buf cap) e =
      StepRes.mk [] (BufBus.mk [] (bufAppend cap buf e) cap) (some false) := by
  rw [bufPublish_noRaise]
  simp only [dispatchList_nil, List.map_nil, List.isEmpty_nil, if_pos]
  rw [flushBuffer_spec (BufBus.mk [] (bufAppend cap buf e) cap) none
    (bufAppend_length_le cap buf e)]
  simp [trimMatch, dispatchList_nil, List.filter_eq_self]

/-- Appending a sequence of events through the capacity-bounded append
keeps the last `cap` of the whole sequence. -/
theorem foldl_bufAppend (cap : Nat) : ∀ (es b : List Event),
    b.length ≤ cap →
    es.foldl (bufAppend cap) b = (b ++ es).drop ((b ++ es).length - cap) := by
  intro es
  induction es with
  | nil =>
    intro b hb
    have h0 : b.length - cap = 0 := by omega
    simp [h0]
  | cons e rest ih =>
    intro b hb
    rw [List.foldl_cons, ih (bufAppend cap b e) (bufAppend_length_le cap b e)]
    simp only [bufAppend, List.length_append, List.length_cons,
      List.length_nil, List.length_drop, Nat.zero_add]
    rw [← List.drop_append_of_le_length
      (show b.length + 1 - cap ≤ (b ++ [e]).length by simp)]
    rw [List.drop_drop]
    simp only [List.append_assoc, List.singleton_append, List.length_append,
      List.length_cons]
    congr 1
    omega

theorem runOps_pubs_empty_reg (cap : Nat) : ∀ (es : List Event) (b : List Event),
    runOps noRaise (BufBus.mk [] b cap) (es.map BusOp.pub) =
      BufBus.mk [] (es.foldl (bufAppend cap) b) cap := by
  intro es
  induction es with
  | nil => intro b; rfl
  | cons e rest ih =>
    intro b
    simp only [List.map_cons, runOps, List.foldl_cons]
    rw [show runOp noRaise (BufBus.mk [] b cap) (BusOp.pub e) =
        BufBus.mk [] (bufAppend cap b e) cap from by
      simp [runOp, bufPublish_empty_reg]]
    exact ih (bufAppend cap b e)

theorem map_fst_map_pair (e : Event) : ∀ l : List Nat,
    (l.map (fun c => (c, e))).map Prod.fst = l := by
  intro l
  induction l with
  | nil => rfl
  | cons c rest ih => simp [ih]

theorem count_pair_map (e : Event) (cb : Nat) : ∀ l : List Nat,
    (l.map (fun c => (c, e))).count (cb, e) = l.count cb := by
  intro l
  induction l with
  | nil => rfl
  | cons c rest ih =>
    by_cases h : c = cb <;> simp [List.count_cons, h, ih]

theorem invokeList_raise (rz : Raises) (e : Event) :
    ∀ (l1 : List Nat) (c : Nat) (l2 : List Nat),
    (∀ x ∈ l1, rz x e = false) → rz c e = true →
    invokeList rz e (l1 ++ c :: l2) =
      (l1.map (fun x => (x, e)) ++ [(c, e)], false) := by
  intro l1
  induction l1 with
  | nil =>
    intro c l2 _ hc
    simp [invokeList, hc]
  | cons y rest ih =>
    intro c l2 hok hc
    have hy : rz y e = false := hok y (List.mem_cons_self y rest)
    have hrest : ∀ x ∈ rest, rz x e = false :=
      fun x hx => hok x (List.mem_cons_of_mem y hx)
    simp [invokeList, hy, ih c l2 hrest hc]

theorem removeFirst_count_other : ∀ (v : List Nat) (cb x : Nat), x ≠ cb →
    (removeFirst v cb).count x = v.count x := by
  intro v
  induction v with
  | nil => intro cb x _; rfl
  | cons y rest ih =>
    intro cb x hx
    by_cases hy : y = cb
    · subst hy
      simp [removeFirst, List.count_cons, hx]
    · simp [removeFirst, hy, List.count_cons, ih cb x hx]

theorem removeFirst_count_self : ∀ (v : List Nat) (cb : Nat), cb ∈ v →
    (removeFirst v cb).count cb + 1 = v.count cb := by
  intro v
  induction v with
  | nil => intro cb h; simp at h
  | cons y rest ih =>
    intro cb hcb
    by_cases hy : y = cb
    · subst hy
      simp [removeFirst, List.count_cons]
    · have hcb2 : cb ∈ rest := by
        rcases List.mem_cons.mp hcb with h | h
        · exact absurd h.symm hy
        · exact h
      simp [removeFirst, hy, List.count_cons, ih cb hcb2]

/-! ## Claims -/

/-- C1: for every registry built by a sequence of `subscribe` calls and a
`publish(name, a, b)` on the core bus: the exact-pattern matches are the
callbacks subscribed under exactly `name` and the prefix matches are those
subscribed under some `p.*` with `name` starting with `p`; each matched
callback is invoked exactly once with `(name, a, b)`; only matched
callbacks are invoked; no callback is invoked twice even when matched both
ways; all invoked exact-pattern subscribers precede all invoked
prefix-pattern subscribers, each group in its registry order; and publish
returns true iff at least one distinct subscriber was invoked. -/
theorem dispatch_exact_then_pfx_once (subs : List (String × Nat))
    (name : String) (a b : Nat) :
    (∀ cb, cb ∈ exactCallbacks (buildReg subs) name ↔ (name, cb) ∈ subs)
    ∧ (∀ cb, cb ∈ pfxCallbacks name (buildReg subs) ↔
        ∃ p, (p, cb) ∈ subs ∧ isPfxPat p name = true)
    ∧ (∀ cb, (cb ∈ exactCallbacks (buildReg subs) name ∨
          cb ∈ pfxCallbacks name (buildReg subs)) →
        (dispatchEvent noRaise (buildReg subs) (Event.mk name a b)).1.count
          (cb, Event.mk name a b) = 1)
    ∧ (∀ x ∈ (dispatchEvent noRaise (buildReg subs) (Event.mk name a b)).1,
        x.2 = Event.mk name a b ∧
          (x.1 ∈ exactCallbacks (buildReg subs) name ∨
           x.1 ∈ pfxCallbacks name (buildReg subs)))
    ∧ ((dispatchEvent noRaise (buildReg subs) (Event.mk name a b)).1.map
        Prod.fst).Nodup
    ∧ (∃ l1 l2,
        (dispatchEvent noRaise (buildReg subs) (Event.mk name a b)).1.map
          Prod.fst = l1 ++ l2 ∧
        l1.Sublist (exactCallbacks (buildReg subs) name) ∧
        l2.Sublist (pfxCallbacks name (buildReg subs)))
    ∧ (dispatchEvent noRaise (buildReg subs) (Event.mk name a b)).2 =
        some (decide ((dispatchEvent noRaise (buildReg subs)
          (Event.mk name a b)).1 ≠ [])) := by
  have hde := dispatchEvent_noRaise (buildReg subs) (Event.mk name a b)
  refine ⟨fun cb => mem_exact_buildReg, fun cb => mem_pfx_buildReg,
    ?_, ?_, ?_, ?_, ?_⟩
  · intro cb hcb
    simp only [hde]
    rw [count_pair_map]
    exact List.count_eq_one_of_mem (nodup_dispatchList _ _)
      (mem_dispatchList.mpr hcb)
  · intro x hx
    simp only [hde] at hx
    obtain ⟨c, hc, rfl⟩ := List.mem_map.mp hx
    exact ⟨rfl, mem_dispatchList.mp hc⟩
  · simp only [hde, map_fst_map_pair]
    exact nodup_dispatchList _ _
  · simp only [hde, map_fst_map_pair]
    obtain ⟨s, hs⟩ := dedupAux_append
      (exactCallbacks (buildReg subs) name)
      (pfxCallbacks name (buildReg subs)) []
    refine ⟨dedupAux [] (exactCallbacks (buildReg subs) name),
      dedupAux s (pfxCallbacks name (buildReg subs)), ?_,
      dedupAux_sublist _ _, dedupAux_sublist _ _⟩
    simp only [dispatchList]
    exact hs
  · simp only [hde]
    congr 1
    simp

/-- C1 witness: with subscriptions `("a", 1)` and `("b.*", 2)` and a
publish of `"b.c"`, callback 2 is invoked exactly once. -/
theorem dispatch_exact_then_pfx_once_witness :
    (dispatchEvent noRaise (buildReg [("a", 1), ("b.*", 2)])
      (Event.mk "b.c" 3 4)).1.count (2, Event.mk "b.c" 3 4) = 1 :=
  (dispatch_exact_then_pfx_once [("a", 1), ("b.*", 2)] "b.c" 3 4).2.2.1 2
    (Or.inr (by decide))

/-- C2: the buffered `publish` dispatches via the core first; the event is
appended to the buffer iff no subscriber received it; a flush is attempted
unconditionally either way; and the call returns the core's delivered
result for this event, unchanged by buffering or by the flush. -/
theorem bufPublish_core_result (s : BufBus) (e : Event) :
    (bufPublish noRaise s e).ret =
      some (!(dispatchList s.reg e.name).isEmpty)
    ∧ (bufPublish noRaise s e).state.buf =
        (flushBuffer noRaise
          (BufBus.mk s.reg
            (if (dispatchList s.reg e.name).isEmpty then
              bufAppend s.cap s.buf e
            else s.buf) s.cap) none).buf
    ∧ (bufPublish noRaise s e).state.reg = s.reg
    ∧ (bufPublish noRaise s e).state.cap = s.cap := by
  rw [bufPublish_noRaise]
  exact ⟨rfl, rfl, rfl, rfl⟩

/-- C3: a flush pass makes at most as many dequeue attempts as there were
entries at flush start (so it terminates even when entries re-enter the
buffer); the dequeued entries are exactly the entries buffered at flush
start, in order, so entries enqueued during the pass (re-appended
failures) are not processed in that pass; an entry whose redelivery finds
no subscriber is re-appended to the back, preserving order; and the pass
returns the total count of removed entries, trimmed plus successfully
dispatched. -/
theorem flush_bounded_pass (s : BufBus) (tp : Option String)
    (hcap : s.buf.length ≤ s.cap) :
    (flushBuffer noRaise s tp).attempts.length ≤ s.buf.length
    ∧ (flushBuffer noRaise s tp).attempts = s.buf
    ∧ (flushBuffer noRaise s tp).buf = s.buf.filter
        (fun ev => !trimMatch tp ev.name &&
          (dispatchList s.reg ev.name).isEmpty)
    ∧ (flushBuffer noRaise s tp).removed =
        (s.buf.filter (fun ev => trimMatch tp ev.name)).length +
        (s.buf.filter (fun ev => !trimMatch tp ev.name &&
          !(dispatchList s.reg ev.name).isEmpty)).length := by
  rw [flushBuffer_spec s tp hcap]
  exact ⟨le_rfl, rfl, rfl, length_filter_or_split _ _ s.buf⟩

/-- C3 witness: a two-entry buffer (one deliverable, one not) is dequeued
exactly once per entry, the undeliverable entry survives, and one removal
is counted. -/
theorem flush_bounded_pass_witness :
    (flushBuffer noRaise
      (BufBus.mk [("x", [1])] [Event.mk "x" 0 0, Event.mk "y" 0 0] 5)
      none).attempts = [Event.mk "x" 0 0, Event.mk "y" 0 0] :=
  (flush_bounded_pass
    (BufBus.mk [("x", [1])] [Event.mk "x" 0 0, Event.mk "y" 0 0] 5)
    none (by decide)).2.1

/-- C4: the buffer of a buffered bus with capacity `C` (starting empty)
never holds more than `C` entries after any sequence of operations, under
any callback behaviour; appending at capacity evicts the oldest entry
while retaining the rest in order; and publishing `C + 1` events that no
subscriber receives leaves exactly the events `2..C+1` buffered in
original order, the first evicted. -/
theorem buffer_capacity (C : Nat) :
    (∀ (rz : Raises) (ops : List BusOp),
      (runOps rz (BufBus.mk [] [] C) ops).buf.length ≤ C)
    ∧ (∀ (x : Event) (rest : List Event) (e : Event), rest.length + 1 = C →
        bufAppend C (x :: rest) e = rest ++ [e])
    ∧ (∀ es : List Event, es.length = C + 1 →
        (runOps noRaise (BufBus.mk [] [] C) (es.map BusOp.pub)).buf =
          es.drop 1) := by
  refine ⟨?_, ?_, ?_⟩
  · intro rz ops
    exact runOps_len rz ops (BufBus.mk [] [] C) (by simp)
  · intro x rest e hlen
    have h1 : (x :: rest).length + 1 - C = 1 := by simp; omega
    simp only [bufAppend, List.length_append, List.length_cons,
      List.length_nil, Nat.zero_add]
    rw [show rest.length + 1 + 1 - C = 1 from by omega]
    simp
  · intro es hlen
    rw [runOps_pubs_empty_reg C es [], foldl_bufAppend C es [] (by simp)]
    simp only [List.nil_append]
    rw [hlen]
    congr 1
    omega

/-- C4 witness: with capacity 2, three undelivered publishes keep the
last two events in order. -/
theorem buffer_capacity_witness :
    (runOps noRaise (BufBus.mk [] [] 2)
      ([Event.mk "a" 0 0, Event.mk "b" 0 0, Event.mk "c" 0 0].map
        BusOp.pub)).buf = [Event.mk "b" 0 0, Event.mk "c" 0 0] :=
  (buffer_capacity 2).2.2
    [Event.mk "a" 0 0, Event.mk "b" 0 0, Event.mk "c" 0 0] (by decide)

/-- C5 counterexample: for the prefix `p = ""`, every buffered name starts
with `p`, yet `trim_by_prefix` removes nothing (the Python truthiness test
`trim_prefix and ...` is false for the empty string): with one buffered
event `"x"` and no subscribers the buffer is unchanged and the call
returns 0. -/
theorem trim_empty_string_cex :
    strStarts "x" "" = true
    ∧ (trimByPfx noRaise (BufBus.mk [] [Event.mk "x" 0 0] 5) "").state.buf
        = [Event.mk "x" 0 0]
    ∧ (trimByPfx noRaise (BufBus.mk [] [Event.mk "x" 0 0] 5) "").ret
        = some 0 := by
  decide

/-- C5 (amended to non-empty prefixes): for every non-empty prefix `p`,
`trim_by_prefix(p)` removes every buffered event whose name starts with
`p`, invokes no subscriber for any such entry, and returns a count at
least the number of such entries (it may also count non-matching entries
that the co-occurring flush pass dispatched). -/
theorem trimByPfx_nonempty_spec (s : BufBus) (p : String) (hp : p ≠ "")
    (hcap : s.buf.length ≤ s.cap) :
    (∀ ev ∈ (trimByPfx noRaise s p).state.buf,
      strStarts ev.name p = false)
    ∧ (∀ x ∈ (trimByPfx noRaise s p).trace,
        strStarts x.2.name p = false)
    ∧ (∃ n, (trimByPfx noRaise s p).ret = some n ∧
        (s.buf.filter (fun ev => strStarts ev.name p)).length ≤ n) := by
  have hp2 : p.data.isEmpty = false := by
    cases p with
    | mk l =>
      cases l with
      | nil => exact absurd rfl hp
      | cons c cs => rfl
  have htm : ∀ name, trimMatch (some p) name = strStarts name p := by
    intro name
    simp [trimMatch, hp2]
  rw [trimByPfx, flushBuffer_spec s (some p) hcap]
  refine ⟨?_, ?_, ?_⟩
  · intro ev hev
    have := (List.mem_filter.mp hev).2
    rw [htm] at this
    simp only [Bool.and_eq_true, Bool.not_eq_true'] at this
    exact this.1
  · intro x hx
    simp only [List.mem_flatMap] at hx
    obtain ⟨ev, _, hxev⟩ := hx
    by_cases ht : trimMatch (some p) ev.name
    · simp [ht] at hxev
    · rw [if_neg ht] at hxev
      obtain ⟨c, _, rfl⟩ := List.mem_map.mp hxev
      rw [htm] at ht
      simpa using ht
  · refine ⟨_, rfl, ?_⟩
    have h1 : (s.buf.filter (fun ev => strStarts ev.name p)).length ≤
        (s.buf.filter (fun ev => trimMatch (some p) ev.name ||
          !(dispatchList s.reg ev.name).isEmpty)).length := by
      rw [← List.countP_eq_length_filter, ← List.countP_eq_length_filter]
      refine List.countP_mono_left ?_
      intro ev _ hst
      rw [htm ev.name]
      simp only [Bool.or_eq_true]
      exact Or.inl hst
    exact h1

/-- C5 witness: with buffered events `"ab"` and `"y"`, a subscriber for
`"y"`, and prefix `"a"`: the matching entry is gone, no invocation
carries it, and the returned count (2: one trimmed, one dispatched) is at
least the matching count (1). -/
theorem trimByPfx_nonempty_spec_witness :
    ∃ n, (trimByPfx noRaise
        (BufBus.mk [("y", [1])] [Event.mk "ab" 0 0, Event.mk "y" 0 0] 5)
        "a").ret = some n ∧
      (([Event.mk "ab" 0 0, Event.mk "y" 0 0] : List Event).filter
        (fun ev => strStarts ev.name "a")).length ≤ n :=
  (trimByPfx_nonempty_spec
    (BufBus.mk [("y", [1])] [Event.mk "ab" 0 0, Event.mk "y" 0 0] 5)
    "a" (by decide) (by decide)).2.2

/-- C6: an event buffered because it had no matching subscriber is
delivered and removed from the buffer as soon as a matching pattern is
subscribed: `subscribe` on the buffered bus registers via the core
(returning its unchanged `true`), then the unconditional flush dispatches
the buffered event to the new callback during that same call. -/
theorem subscribe_flushes_buffered (s : BufBus) (pat : String) (cb : Nat)
    (e : Event) (hcap : s.buf.length ≤ s.cap) (he : e ∈ s.buf)
    (hm : pat = e.name ∨ isPfxPat pat e.name = true) :
    (bufSubscribe noRaise s pat cb).ret = some true
    ∧ e ∉ (bufSubscribe noRaise s pat cb).state.buf
    ∧ (cb, e) ∈ (bufSubscribe noRaise s pat cb).trace
    ∧ (bufSubscribe noRaise s pat cb).state.reg = subscribe s.reg pat cb := by
  have hcb : cb ∈ dispatchList (subscribe s.reg pat cb) e.name := by
    refine mem_dispatchList.mpr ?_
    rcases hm with hm | hm
    · exact Or.inl ((mem_exact_subscribe s.reg).mpr (Or.inr ⟨hm, rfl⟩))
    · exact Or.inr ((mem_pfx_subscribe s.reg).mpr (Or.inr ⟨rfl, hm⟩))
  have hne : (dispatchList (subscribe s.reg pat cb) e.name).isEmpty = false := by
    rcases h : dispatchList (subscribe s.reg pat cb) e.name with _ | ⟨c, rest⟩
    · rw [h] at hcb
      simp at hcb
    · rfl
  rw [bufSubscribe,
    flushBuffer_spec (BufBus.mk (subscribe s.reg pat cb) s.buf s.cap) none hcap]
  refine ⟨rfl, ?_, ?_, rfl⟩
  · intro hmem
    have := (List.mem_filter.mp hmem).2
    simp only [trimMatch, Bool.not_false, Bool.true_and] at this
    rw [hne] at this
    exact Bool.false_ne_true this
  · simp only [List.mem_flatMap]
    refine ⟨e, he, ?_⟩
    rw [if_neg (by simp [trimMatch])]
    exact List.mem_map.mpr ⟨cb, hcb, rfl⟩

/-- C6 witness: a buffered `"t.x"` event is delivered to a new `"t.*"`
subscriber during the subscribe call. -/
theorem subscribe_flushes_buffered_witness :
    (bufSubscribe noRaise (BufBus.mk [] [Event.mk "t.x" 0 0] 4)
      "t.*" 9).ret = some true
    ∧ (9, Event.mk "t.x" 0 0) ∈
        (bufSubscribe noRaise (BufBus.mk [] [Event.mk "t.x" 0 0] 4)
          "t.*" 9).trace :=
  ⟨(subscribe_flushes_buffered (BufBus.mk [] [Event.mk "t.x" 0 0] 4) "t.*" 9
      (Event.mk "t.x" 0 0) (by decide) (by decide) (Or.inr (by decide))).1,
   (subscribe_flushes_buffered (BufBus.mk [] [Event.mk "t.x" 0 0] 4) "t.*" 9
      (Event.mk "t.x" 0 0) (by decide) (by decide)
      (Or.inr (by decide))).2.2.1⟩

/-- C7: the bus does not catch subscriber exceptions: if during a
dispatch pass every callback before `c` (in the concatenated
exact-then-prefix order) runs normally and `c` raises, the pass invokes
exactly the callbacks up to and including `c`, the exception propagates to
the publisher (result `none` instead of a delivered Bool), and the
subscribers after `c` in that pass are not invoked. -/
theorem dispatch_fail_fast (rz : Raises) (reg : Registry) (e : Event)
    (l1 : List Nat) (c : Nat) (l2 : List Nat)
    (hsplit : dispatchList reg e.name = l1 ++ c :: l2)
    (hok : ∀ x ∈ l1, rz x e = false) (hc : rz c e = true) :
    dispatchEvent rz reg e = (l1.map (fun x => (x, e)) ++ [(c, e)], none)
    ∧ ∀ x ∈ l2, ∀ ev, (x, ev) ∉ (dispatchEvent rz reg e).1 := by
  have hde : dispatchEvent rz reg e =
      (l1.map (fun x => (x, e)) ++ [(c, e)], none) := by
    rw [dispatchEvent, hsplit, invokeList_raise rz e l1 c l2 hok hc]
    simp
  have hnd : (l1 ++ c :: l2).Nodup := hsplit ▸ nodup_dispatchList reg e.name
  refine ⟨hde, ?_⟩
  intro x hx ev hmem
  rw [hde] at hmem
  have hdisj := (List.nodup_append.mp hnd).2.2
  rcases List.mem_append.mp hmem with h | h
  · obtain ⟨y, hy, hyx⟩ := List.mem_map.mp h
    have : x ∈ l1 := by
      rw [show y = x from congrArg Prod.fst hyx] at hy
      exact hy
    exact hdisj this (List.mem_cons_of_mem c hx)
  · have hxc : x = c := by
      have := List.mem_singleton.mp h
      exact congrArg Prod.fst this
    have hcnd : c ∉ l2 :=
      ((List.nodup_cons.mp (List.nodup_append.mp hnd).2.1)).1
    exact hcnd (hxc ▸ hx)

/-- C7 witness: with callbacks `[1, 2, 3]` under `"a"` and callback 2
raising, the pass invokes 1 then 2 and stops with the exception
propagated; callback 3 is never invoked. -/
theorem dispatch_fail_fast_witness :
    dispatchEvent (fun c _ => c == 2) [("a", [1, 2, 3])] (Event.mk "a" 0 0)
      = ([(1, Event.mk "a" 0 0), (2, Event.mk "a" 0 0)], none) :=
  (dispatch_fail_fast (fun c _ => c == 2) [("a", [1, 2, 3])]
    (Event.mk "a" 0 0) [1] 2 [3] (by decide) (by decide) (by decide)).1

/-- C8: `unsubscribe(pattern, callback)` removes the first occurrence of
the callback registered under exactly that pattern and returns true; it
returns false, leaving the whole registry unchanged, when the pattern is
not a registered key or the callback is not in that pattern's list; and a
successful removal never modifies any other pattern's list. -/
theorem unsubscribe_first_occurrence (reg : Registry) (p : String) (cb : Nat) :
    (lookupReg reg p = none → unsubscribe reg p cb = (reg, false))
    ∧ (∀ v, lookupReg reg p = some v → cb ∉ v →
        unsubscribe reg p cb = (reg, false))
    ∧ (∀ v, lookupReg reg p = some v → cb ∈ v →
        (unsubscribe reg p cb).2 = true
        ∧ lookupReg (unsubscribe reg p cb).1 p = some (removeFirst v cb)
        ∧ ∀ q, q ≠ p →
            lookupReg (unsubscribe reg p cb).1 q = lookupReg reg q) := by
  induction reg with
  | nil =>
    refine ⟨fun _ => rfl, fun v hv => by simp [lookupReg] at hv,
      fun v hv => by simp [lookupReg] at hv⟩
  | cons kv rest ih =>
    obtain ⟨k, v0⟩ := kv
    by_cases hk : k = p
    · subst hk
      refine ⟨fun h => by simp [lookupReg] at h, ?_, ?_⟩
      · intro v hv hcb
        have hv0 : v = v0 := by
          simp [lookupReg] at hv
          exact hv.symm
        subst hv0
        simp [unsubscribe, hcb]
      · intro v hv hcb
        have hv0 : v = v0 := by
          simp [lookupReg] at hv
          exact hv.symm
        subst hv0
        refine ⟨by simp [unsubscribe, hcb], by simp [unsubscribe, hcb, lookupReg], ?_⟩
        intro q hq
        have hq2 : ¬k = q := fun h => hq h.symm
        simp [unsubscribe, hcb, lookupReg, hq2]
    · have hlk : lookupReg ((k, v0) :: rest) p = lookupReg rest p := by
        simp [lookupReg, hk]
      refine ⟨?_, ?_, ?_⟩
      · intro h
        rw [hlk] at h
        have := ih.1 h
        simp [unsubscribe, hk, this]
      · intro v hv hcb
        rw [hlk] at hv
        have := ih.2.1 v hv hcb
        simp [unsubscribe, hk, this]
      · intro v hv hcb
        rw [hlk] at hv
        obtain ⟨h1, h2, h3⟩ := ih.2.2 v hv hcb
        refine ⟨by simp [unsubscribe, hk, h1], ?_, ?_⟩
        · simp only [unsubscribe, if_neg hk]
          rw [show lookupReg ((k, v0) :: (unsubscribe rest p cb).1) p =
              lookupReg (unsubscribe rest p cb).1 p from by
            simp [lookupReg, hk]]
          exact h2
        · intro q hq
          by_cases hkq : k = q
          · subst hkq
            simp [unsubscribe, hk, lookupReg]
          · simp only [unsubscribe, if_neg hk]
            rw [show lookupReg ((k, v0) :: (unsubscribe rest p cb).1) q =
                lookupReg (unsubscribe rest p cb).1 q from by
              simp [lookupReg, hkq]]
            rw [h3 q hq]
            simp [lookupReg, hkq]

/-- C8 witness: removing callback 5 under `"a"` deletes only its first
occurrence, returns true, and leaves key `"b"` untouched; removing under
an unknown pattern returns false with the registry unchanged. -/
theorem unsubscribe_first_occurrence_witness :
    (unsubscribe [("a", [5, 6, 5]), ("b", [7])] "a" 5).2 = true
    ∧ lookupReg (unsubscribe [("a", [5, 6, 5]), ("b", [7])] "a" 5).1 "a"
        = some (removeFirst [5, 6, 5] 5)
    ∧ lookupReg (unsubscribe [("a", [5, 6, 5]), ("b", [7])] "a" 5).1 "b"
        = lookupReg [("a", [5, 6, 5]), ("b", [7])] "b"
    ∧ unsubscribe [("a", [5, 6, 5]), ("b", [7])] "c" 5
        = ([("a", [5, 6, 5]), ("b", [7])], false) :=
  ⟨((unsubscribe_first_occurrence [("a", [5, 6, 5]), ("b", [7])] "a" 5).2.2
      [5, 6, 5] (by decide) (by decide)).1,
   ((unsubscribe_first_occurrence [("a", [5, 6, 5]), ("b", [7])] "a" 5).2.2
      [5, 6, 5] (by decide) (by decide)).2.1,
   ((unsubscribe_first_occurrence [("a", [5, 6, 5]), ("b", [7])] "a" 5).2.2
      [5, 6, 5] (by decide) (by decide)).2.2 "b" (by decide),
   (unsubscribe_first_occurrence [("a", [5, 6, 5]), ("b", [7])] "c" 5).1
      (by decide)⟩

/-- C9: callback identity decides deduplication and removal: a single
publish invokes each callback identity at most once; two registrations
under matching patterns with distinct identities are distinct
subscriptions and both get invoked; and removal by identity deletes
exactly one occurrence of that identity, leaving every other identity's
registration count unchanged. -/
theorem callback_identity_spec (reg : Registry) (e : Event) :
    (∀ cb, (dispatchEvent noRaise reg e).1.count (cb, e) ≤ 1)
    ∧ (∀ cb1 cb2, cb1 ≠ cb2 →
        (cb1 ∈ exactCallbacks reg e.name ∨ cb1 ∈ pfxCallbacks e.name reg) →
        (cb2 ∈ exactCallbacks reg e.name ∨ cb2 ∈ pfxCallbacks e.name reg) →
        (cb1, e) ∈ (dispatchEvent noRaise reg e).1 ∧
          (cb2, e) ∈ (dispatchEvent noRaise reg e).1)
    ∧ (∀ (v : List Nat) (cb x : Nat), x ≠ cb →
        (removeFirst v cb).count x = v.count x)
    ∧ (∀ (v : List Nat) (cb : Nat), cb ∈ v →
        (removeFirst v cb).count cb + 1 = v.count cb) := by
  have hde := dispatchEvent_noRaise reg e
  refine ⟨?_, ?_, removeFirst_count_other, removeFirst_count_self⟩
  · intro cb
    simp only [hde]
    rw [count_pair_map]
    exact List.nodup_iff_count_le_one.mp (nodup_dispatchList reg e.name) cb
  · intro cb1 cb2 _ h1 h2
    simp only [hde]
    exact ⟨List.mem_map.mpr ⟨cb1, mem_dispatchList.mpr h1, rfl⟩,
      List.mem_map.mpr ⟨cb2, mem_dispatchList.mpr h2, rfl⟩⟩

/-- C9 witness: with callback 1 registered under both `"a"` and `"a.*"`
and callback 2 under `"a.*"`, publishing `"a"` invokes 1 once and 2 once;
removing 5 from `[5, 6, 5]` leaves one occurrence of 5 and does not touch
the count of 6. -/
theorem callback_identity_spec_witness :
    (dispatchEvent noRaise [("a", [1]), ("a.*", [1, 2])]
        (Event.mk "a" 0 0)).1.count (1, Event.mk "a" 0 0) ≤ 1
    ∧ (removeFirst [5, 6, 5] 5).count 6 = ([5, 6, 5] : List Nat).count 6
    ∧ (removeFirst [5, 6, 5] 5).count 5 + 1 = ([5, 6, 5] : List Nat).count 5 :=
  ⟨(callback_identity_spec [("a", [1]), ("a.*", [1, 2])]
      (Event.mk "a" 0 0)).1 1,
   (callback_identity_spec [] (Event.mk "" 0 0)).2.2.1 [5, 6, 5] 5 6
      (by decide),
   (callback_identity_spec [] (Event.mk "" 0 0)).2.2.2 [5, 6, 5] 5
      (by decide)⟩

/-- C10: if a subscriber callback raises during the initial dispatch of a
buffered `publish`, the exception propagates out of `publish` (result
`none`), the whole bus state — in particular the buffer — is left exactly
as before the call, the event is not appended, and no flush pass runs (the
invocation trace is exactly the initial dispatch's). -/
theorem bufPublish_exception_state (rz : Raises) (s : BufBus) (e : Event)
    (h : (dispatchEvent rz s.reg e).2 = none) :
    bufPublish rz s e = StepRes.mk (dispatchEvent rz s.reg e).1 s none := by
  simp [bufPublish, h]

/-- C10 witness: callback 2 raises on `"a"`; the buffered publish leaves
the one-event buffer untouched and propagates the exception. -/
theorem bufPublish_exception_state_witness :
    bufPublish (fun c _ => c == 2)
        (BufBus.mk [("a", [2])] [Event.mk "q" 0 0] 3) (Event.mk "a" 0 0)
      = StepRes.mk
          (dispatchEvent (fun c _ => c == 2) [("a", [2])]
            (Event.mk "a" 0 0)).1
          (BufBus.mk [("a", [2])] [Event.mk "q" 0 0] 3) none :=
  bufPublish_exception_state (fun c _ => c == 2)
    (BufBus.mk [("a", [2])] [Event.mk "q" 0 0] 3) (Event.mk "a" 0 0)
    (by decide)

end JustBus

